import Mathlib

/-!
Verification of the dappaDiary retrieval-augmented-generation pipeline.

This file gives a shallow embedding, in Lean 4, of the pure computational core
of the pipeline's TypeScript sources:

* the text chunkers (`chunkText` of `src/lib/rag/lilypad-service.ts` and the
  paragraph-only `chunkText` of the document processor),
* the cosine-similarity utility (`cosineDistance` of
  `src/lib/rag/utils/vector-utils.ts`),
* the chunk retriever (`StorachaRetriever.retrieveSimilarChunks`),
* the podcast agent's question-answering and script nodes
  (`src/lib/podcast/podcast-agent.ts`),
* the podcast storage lookup and the podcast POST route,
* the document registry and `processDocument` (document deduplication).

JavaScript strings are modelled as `List Char`, JavaScript numbers as `ℝ`
(an idealized, rounding-free model of IEEE doubles), and external services
(embedding inference, LLM completion, SHA-256 hashing) as function parameters
so the theorems quantify over their behavior.
-/

set_option linter.unusedVariables false

/-- Strings of the source program are modelled as lists of characters. -/
abbrev Str : Type := List Char

/-! ## Whitespace normalization

`words` returns the list of maximal non-whitespace runs of a string; two
strings are "equal modulo whitespace normalization" precisely when their
`words` agree. -/

/-- Scanner accumulating the current (reversed) non-whitespace run. -/
def wordsAux : Str → Str → List Str
  | [], cur => if cur.isEmpty then [] else [cur.reverse]
  | c :: cs, cur =>
    if c.isWhitespace then
      if cur.isEmpty then wordsAux cs [] else cur.reverse :: wordsAux cs []
    else wordsAux cs (c :: cur)

/-- The maximal non-whitespace runs of a string, in order. -/
def words (s : Str) : List Str := wordsAux s []

theorem wordsAux_ws_cons {c : Char} (hc : c.isWhitespace = true) (b : Str) :
    ∀ cur, wordsAux (c :: b) cur
      = (if cur.isEmpty then ([] : List Str) else [cur.reverse]) ++ words b := by
  intro cur
  by_cases h : cur.isEmpty <;> simp [wordsAux, hc, h, words]

theorem wordsAux_append_ws (a : Str) {c : Char} (hc : c.isWhitespace = true) (b : Str) :
    ∀ cur, wordsAux (a ++ c :: b) cur = wordsAux a cur ++ words b := by
  induction a with
  | nil =>
    intro cur
    simpa [wordsAux] using wordsAux_ws_cons hc b cur
  | cons x xs ih =>
    intro cur
    by_cases hx : x.isWhitespace
    · by_cases hcur : cur.isEmpty <;> simp [wordsAux, hx, hcur, ih]
    · simp [wordsAux, hx, ih]

theorem words_ws_left {w : Str} (hw : ∀ c ∈ w, c.isWhitespace = true) (b : Str) :
    words (w ++ b) = words b := by
  induction w with
  | nil => simp
  | cons c cs ih =>
    have hc : c.isWhitespace = true := hw c (List.mem_cons_self c cs)
    have ih' := ih (fun x hx => hw x (List.mem_cons_of_mem c hx))
    simp [words, wordsAux, hc] at ih' ⊢
    exact ih'

/-- Appending text across an all-whitespace, nonempty separator splits `words`. -/
theorem words_append_sep (a : Str) {w : Str} (hw : ∀ c ∈ w, c.isWhitespace = true)
    (hne : w ≠ []) (b : Str) : words (a ++ (w ++ b)) = words a ++ words b := by
  match w, hne with
  | c :: w', _ =>
    have hc : c.isWhitespace = true := hw c (List.mem_cons_self c w')
    have hw' : ∀ x ∈ w', x.isWhitespace = true :=
      fun x hx => hw x (List.mem_cons_of_mem c hx)
    calc words (a ++ (c :: (w' ++ b)))
        = wordsAux a [] ++ words (w' ++ b) := wordsAux_append_ws a hc (w' ++ b) []
      _ = words a ++ words b := by rw [words_ws_left hw' b]; rfl

/-- A string ending in whitespace contributes its own words, then the rest. -/
theorem words_append_of_last_ws (a : Str) {w : Str}
    (hw : ∀ c ∈ w, c.isWhitespace = true) (hne : w ≠ []) (b : Str) :
    words ((a ++ w) ++ b) = words (a ++ w) ++ words b := by
  have h1 : words (a ++ (w ++ b)) = words a ++ words b := words_append_sep a hw hne b
  have h2 : words (a ++ (w ++ ([] : Str))) = words a ++ words ([] : Str) :=
    words_append_sep a hw hne []
  simp only [List.append_nil] at h2
  simp only [List.append_assoc]
  rw [h1, h2]
  simp [words, wordsAux]

/-! ## Paragraph splitting

Embeds `text.split(/\n\s*\n/)`: the separator is a newline followed by the
(greedily chosen) run of whitespace ending at the last newline of the maximal
whitespace run. -/

/-- Number of characters, counted from the start of `cs`, up to and including
the last newline of the maximal leading whitespace run of `cs` (`none` when
that run holds no newline).  This is what the `\s*\n` tail of the paragraph
separator regex consumes. -/
def sepLenAux : Str → Option Nat
  | [] => none
  | c :: cs =>
    if c.isWhitespace then
      match sepLenAux cs with
      | some n => some (n + 1)
      | none => if c = '\n' then some 1 else none
    else none

theorem sepLenAux_le_length {cs : Str} {n : Nat} (h : sepLenAux cs = some n) :
    n ≤ cs.length := by
  induction cs generalizing n with
  | nil => simp [sepLenAux] at h
  | cons c cs ih =>
    by_cases hc : c.isWhitespace
    · simp only [sepLenAux, hc, if_true] at h
      cases hrec : sepLenAux cs with
      | some m =>
        rw [hrec] at h
        cases h
        have := ih hrec
        simp only [List.length_cons]; omega
      | none =>
        rw [hrec] at h
        by_cases hnl : c = '\n'
        · simp [hnl] at h; simp only [List.length_cons]; omega
        · simp [hnl] at h
    · simp [sepLenAux, hc] at h

theorem sepLenAux_ws {cs : Str} {n : Nat} (h : sepLenAux cs = some n) :
    ∀ c ∈ cs.take n, c.isWhitespace = true := by
  induction cs generalizing n with
  | nil => simp [sepLenAux] at h
  | cons c cs ih =>
    by_cases hc : c.isWhitespace
    · simp only [sepLenAux, hc, if_true] at h
      cases hrec : sepLenAux cs with
      | some m =>
        rw [hrec] at h
        cases h
        intro x hx
        simp only [List.take_succ_cons, List.mem_cons] at hx
        rcases hx with rfl | hx
        · exact hc
        · exact ih hrec x hx
      | none =>
        rw [hrec] at h
        by_cases hnl : c = '\n'
        · simp only [hnl, if_true] at h
          cases h
          intro x hx
          simp only [List.take_succ_cons, List.take_zero, List.mem_singleton] at hx
          subst hx; exact hc
        · simp [hnl] at h
    · simp [sepLenAux, hc] at h

theorem sepLenAux_pos {cs : Str} {n : Nat} (h : sepLenAux cs = some n) : 1 ≤ n := by
  induction cs generalizing n with
  | nil => simp [sepLenAux] at h
  | cons c cs ih =>
    by_cases hc : c.isWhitespace
    · simp only [sepLenAux, hc, if_true] at h
      cases hrec : sepLenAux cs with
      | some m => rw [hrec] at h; cases h; omega
      | none =>
        rw [hrec] at h
        by_cases hnl : c = '\n'
        · simp [hnl] at h; omega
        · simp [hnl] at h
    · simp [sepLenAux, hc] at h

/-- Paragraph-splitting scanner; `acc` is the reversed current paragraph. -/
def paraSplitAux (cs : Str) (acc : Str) : List Str :=
  match cs with
  | [] => [acc.reverse]
  | c :: rest =>
    if c = '\n' then
      match sepLenAux rest with
      | some n => acc.reverse :: paraSplitAux (rest.drop n) []
      | none => paraSplitAux rest (c :: acc)
    else paraSplitAux rest (c :: acc)
termination_by cs.length
decreasing_by
  · simp only [List.length_drop, List.length_cons]; omega
  · simp only [List.length_cons]; omega
  · simp only [List.length_cons]; omega

/-- Embedding of `text.split(/\n\s*\n/)` from both `chunkText` implementations. -/
def splitParas (s : Str) : List Str := paraSplitAux s []

/-- Characters that end a sentence for the sentence-splitting regex. -/
def isPunctChar (c : Char) : Bool := c = '.' || c = '!' || c = '?'

/-- Lookbehind of the sentence-splitting regex: does the character just before
the scan position (the head of the reversed accumulator) end a sentence? -/
def lookbehindPunct : Str → Bool
  | p :: _ => isPunctChar p
  | [] => false

/-- Sentence-splitting scanner; `acc` is the reversed current sentence, whose
head is the character immediately preceding the scan position. -/
def sentSplitAux (cs : Str) (acc : Str) : List Str :=
  match cs with
  | [] => [acc.reverse]
  | c :: rest =>
    if c.isWhitespace && lookbehindPunct acc then
      acc.reverse :: sentSplitAux (rest.dropWhile Char.isWhitespace) []
    else sentSplitAux rest (c :: acc)
termination_by cs.length
decreasing_by
  · simp only [List.length_cons]
    exact Nat.lt_succ_of_le (List.dropWhile_suffix _).length_le
  · simp only [List.length_cons]; omega

/-- Embedding of `paragraph.split(/(?<=[.!?])\s+/)` from
`lilypad-service.ts`'s `chunkText`. -/
def splitSents (s : Str) : List Str := sentSplitAux s []

/-! ## The text chunkers

`chunkText` embeds `chunkText` of `src/lib/rag/lilypad-service.ts` (paragraph
accumulation with sentence splitting of oversized paragraphs); `chunkTextDP`
embeds the `chunkText` local to the document processor (paragraph accumulation
with trimming and a forced break, no sentence splitting). -/

/-- State of the chunking loops: emitted chunks plus the running buffer. -/
structure ChunkSt where
  chunks : List Str
  cur : Str

/-- The shared guard `currentChunk.length + piece.length > maxChunkSize &&
currentChunk.length > 0`: emit the buffer and reset it. -/
def flushIfNeeded (m : Nat) (pieceLen : Nat) (st : ChunkSt) : ChunkSt :=
  if m < st.cur.length + pieceLen ∧ 0 < st.cur.length then
    { chunks := st.chunks ++ [st.cur], cur := [] }
  else st

/-- Body of the sentence loop of `lilypad-service.ts`'s `chunkText`. -/
def procSentence (m : Nat) (st : ChunkSt) (s : Str) : ChunkSt :=
  let st1 := flushIfNeeded m s.length st
  { st1 with cur := st1.cur ++ s ++ [' '] }

/-- Body of the paragraph loop of `lilypad-service.ts`'s `chunkText`. -/
def procPara (m : Nat) (st : ChunkSt) (p : Str) : ChunkSt :=
  let st1 := flushIfNeeded m p.length st
  if m < p.length then (splitSents p).foldl (procSentence m) st1
  else { st1 with cur := st1.cur ++ p ++ ['\n', '\n'] }

/-- Embedding of `chunkText(text, maxChunkSize)` from
`src/lib/rag/lilypad-service.ts` (the TypeScript default for the second
argument is 1000). -/
def chunkText (text : Str) (m : Nat) : List Str :=
  let st := (splitParas text).foldl (procPara m) ⟨[], []⟩
  if 0 < st.cur.length then st.chunks ++ [st.cur] else st.chunks

/-- JavaScript `String.prototype.trim`: strip leading and trailing whitespace. -/
def trimStr (s : Str) : Str :=
  ((s.dropWhile Char.isWhitespace).reverse.dropWhile Char.isWhitespace).reverse

/-- Body of the paragraph loop of the document processor's `chunkText`
(trimmed pushes and a forced break when the buffer overflows). -/
def procParaDP (m : Nat) (st : ChunkSt) (p : Str) : ChunkSt :=
  let st1 :=
    if st.cur ≠ [] ∧ m < st.cur.length + p.length then
      { chunks := st.chunks ++ [trimStr st.cur], cur := ([] : Str) }
    else st
  let cur2 := st1.cur ++ p ++ ['\n', '\n']
  if m < cur2.length then { chunks := st1.chunks ++ [trimStr cur2], cur := [] }
  else { chunks := st1.chunks, cur := cur2 }

/-- Embedding of the paragraph-only `chunkText(text, maxChunkSize)` local to
the document processor module. -/
def chunkTextDP (text : Str) (m : Nat) : List Str :=
  let st := (splitParas text).foldl (procParaDP m) ⟨[], []⟩
  if trimStr st.cur ≠ [] then st.chunks ++ [trimStr st.cur] else st.chunks

/-! ## What the chunker emits, as a string

Each processed piece (a short paragraph, or one sentence of an oversized
paragraph) is appended to the buffer together with its separator, and buffer
flushes never lose characters; so the concatenation of all chunks is exactly
the concatenation of the pieces with their separators. -/

/-- The pieces (with trailing separators) that one paragraph contributes to
the output of `chunkText`. -/
def paraPieces (m : Nat) (p : Str) : List Str :=
  if m < p.length then (splitSents p).map (fun s => s ++ [' '])
  else [p ++ ['\n', '\n']]

theorem flushIfNeeded_join (m k : Nat) (st : ChunkSt) :
    (flushIfNeeded m k st).chunks.flatten ++ (flushIfNeeded m k st).cur
      = st.chunks.flatten ++ st.cur := by
  unfold flushIfNeeded
  by_cases h : m < st.cur.length + k ∧ 0 < st.cur.length <;> simp [h]

theorem procSentence_join (m : Nat) (st : ChunkSt) (s : Str) :
    (procSentence m st s).chunks.flatten ++ (procSentence m st s).cur
      = st.chunks.flatten ++ st.cur ++ (s ++ [' ']) := by
  unfold procSentence
  have h := flushIfNeeded_join m s.length st
  simp only [List.append_assoc] at h ⊢
  rw [← List.append_assoc, h]
  simp

theorem foldl_procSentence_join (m : Nat) (ss : List Str) :
    ∀ st : ChunkSt,
      ((ss.foldl (procSentence m) st).chunks.flatten ++ (ss.foldl (procSentence m) st).cur)
        = st.chunks.flatten ++ st.cur ++ ((ss.map (fun s => s ++ [' '])).flatten) := by
  induction ss with
  | nil => intro st; simp
  | cons s ss ih =>
    intro st
    simp only [List.foldl_cons, List.map_cons, List.flatten]
    rw [ih (procSentence m st s), procSentence_join]
    simp [List.append_assoc]

theorem procPara_join (m : Nat) (st : ChunkSt) (p : Str) :
    (procPara m st p).chunks.flatten ++ (procPara m st p).cur
      = st.chunks.flatten ++ st.cur ++ (paraPieces m p).flatten := by
  unfold procPara paraPieces
  by_cases h : m < p.length
  · simp only [h, if_true]
    rw [foldl_procSentence_join, flushIfNeeded_join]
  · simp only [h, if_false]
    have hf := flushIfNeeded_join m p.length st
    simp only [List.flatten_cons, List.flatten_nil, List.append_nil]
    calc (flushIfNeeded m p.length st).chunks.flatten
          ++ ((flushIfNeeded m p.length st).cur ++ p ++ ['\n', '\n'])
        = ((flushIfNeeded m p.length st).chunks.flatten
            ++ (flushIfNeeded m p.length st).cur) ++ (p ++ ['\n', '\n']) := by
          simp [List.append_assoc]
      _ = st.chunks.flatten ++ st.cur ++ (p ++ ['\n', '\n']) := by rw [hf]

theorem foldl_procPara_join (m : Nat) (ps : List Str) :
    ∀ st : ChunkSt,
      ((ps.foldl (procPara m) st).chunks.flatten ++ (ps.foldl (procPara m) st).cur)
        = st.chunks.flatten ++ st.cur ++ ((ps.map (fun p => (paraPieces m p).flatten)).flatten) := by
  induction ps with
  | nil => intro st; simp
  | cons p ps ih =>
    intro st
    simp only [List.foldl_cons, List.map_cons, List.flatten]
    rw [ih (procPara m st p), procPara_join]
    simp [List.append_assoc]

/-- The chunks of `chunkText`, concatenated, are exactly the pieces of all
paragraphs with their separators, concatenated. -/
theorem chunkText_join (text : Str) (m : Nat) :
    (chunkText text m).flatten
      = (((splitParas text).map (fun p => (paraPieces m p).flatten)).flatten) := by
  unfold chunkText
  have h := foldl_procPara_join m (splitParas text) ⟨[], []⟩
  simp only [List.flatten_nil, List.nil_append] at h
  by_cases hc : 0 < ((splitParas text).foldl (procPara m) ⟨[], []⟩).cur.length
  · simp only [hc, if_true, List.flatten_append]
    simpa using h
  · simp only [hc, if_false]
    have : ((splitParas text).foldl (procPara m) ⟨[], []⟩).cur = [] := by
      cases hd : ((splitParas text).foldl (procPara m) ⟨[], []⟩).cur with
      | nil => rfl
      | cons x xs => rw [hd] at hc; simp at hc
    rw [this] at h
    simpa using h

/-! ## Splitting preserves words -/

theorem mem_takeWhile_ws {l : Str} {x : Char}
    (hx : x ∈ l.takeWhile Char.isWhitespace) : x.isWhitespace = true := by
  induction l with
  | nil => simp [List.takeWhile] at hx
  | cons c cs ih =>
    by_cases hc : c.isWhitespace
    · rw [List.takeWhile_cons, if_pos hc] at hx
      rcases List.mem_cons.mp hx with rfl | hx'
      · exact hc
      · exact ih hx'
    · rw [List.takeWhile_cons, if_neg hc] at hx
      simp at hx

theorem sentSplitAux_cons_split {c : Char} {acc : Str} (rest : Str)
    (h : (c.isWhitespace && lookbehindPunct acc) = true) :
    sentSplitAux (c :: rest) acc
      = acc.reverse :: sentSplitAux (rest.dropWhile Char.isWhitespace) [] := by
  rw [sentSplitAux.eq_def]; simp [h]

theorem sentSplitAux_cons_nosplit {c : Char} {acc : Str} (rest : Str)
    (h : (c.isWhitespace && lookbehindPunct acc) = false) :
    sentSplitAux (c :: rest) acc = sentSplitAux rest (c :: acc) := by
  rw [sentSplitAux.eq_def]; simp [h]

theorem paraSplitAux_cons_sep {acc : Str} {rest : Str} {k : Nat}
    (h : sepLenAux rest = some k) :
    paraSplitAux ('\n' :: rest) acc = acc.reverse :: paraSplitAux (rest.drop k) [] := by
  rw [paraSplitAux.eq_def]; simp [h]

theorem paraSplitAux_cons_nosep {acc : Str} {rest : Str}
    (h : sepLenAux rest = none) :
    paraSplitAux ('\n' :: rest) acc = paraSplitAux rest ('\n' :: acc) := by
  rw [paraSplitAux.eq_def]; simp [h]

theorem paraSplitAux_cons_other {c : Char} {acc : Str} (rest : Str)
    (h : ¬ c = '\n') :
    paraSplitAux (c :: rest) acc = paraSplitAux rest (c :: acc) := by
  rw [paraSplitAux.eq_def]; simp [h]

theorem sentSplitAux_words (cs : Str) : ∀ acc : Str,
    ((sentSplitAux cs acc).map words).flatten = words (acc.reverse ++ cs) := by
  suffices hgen : ∀ n (cs : Str), cs.length = n → ∀ acc : Str,
      ((sentSplitAux cs acc).map words).flatten = words (acc.reverse ++ cs) from
    hgen cs.length cs rfl
  intro n
  induction n using Nat.strong_induction_on with
  | _ n ih =>
  intro cs hn acc
  match cs with
  | [] => simp [sentSplitAux]
  | c :: rest =>
    cases hsplit : (c.isWhitespace && lookbehindPunct acc) with
    | true =>
      rw [sentSplitAux_cons_split rest hsplit]
      have hlt : (rest.dropWhile Char.isWhitespace).length < n := by
        have := (List.dropWhile_suffix (l := rest) Char.isWhitespace).length_le
        subst hn; simp only [List.length_cons]; omega
      have hrec := ih _ hlt (rest.dropWhile Char.isWhitespace) rfl []
      simp only [List.map_cons, List.flatten_cons]
      rw [hrec]
      have hc : c.isWhitespace = true := by
        cases hw : c.isWhitespace with
        | true => rfl
        | false => rw [hw] at hsplit; simp at hsplit
      have hsep : ∀ x ∈ c :: rest.takeWhile Char.isWhitespace, x.isWhitespace = true := by
        intro x hx
        rcases List.mem_cons.mp hx with rfl | hx'
        · exact hc
        · exact mem_takeWhile_ws hx'
      have hdecomp : (c :: rest)
          = (c :: rest.takeWhile Char.isWhitespace) ++ rest.dropWhile Char.isWhitespace := by
        simp [List.takeWhile_append_dropWhile]
      rw [hdecomp, words_append_sep acc.reverse hsep (by simp) _]
      simp [words]
    | false =>
      rw [sentSplitAux_cons_nosplit rest hsplit]
      have hlt : rest.length < n := by subst hn; simp
      have hrec := ih _ hlt rest rfl (c :: acc)
      rw [hrec]
      simp [List.append_assoc]

/-- Sentence splitting loses only whitespace: the words of the sentences,
concatenated, are the words of the paragraph. -/
theorem splitSents_words (p : Str) :
    ((splitSents p).map words).flatten = words p := by
  simpa using sentSplitAux_words p []

theorem paraSplitAux_words (cs : Str) : ∀ acc : Str,
    ((paraSplitAux cs acc).map words).flatten = words (acc.reverse ++ cs) := by
  suffices hgen : ∀ n (cs : Str), cs.length = n → ∀ acc : Str,
      ((paraSplitAux cs acc).map words).flatten = words (acc.reverse ++ cs) from
    hgen cs.length cs rfl
  intro n
  induction n using Nat.strong_induction_on with
  | _ n ih =>
  intro cs hn acc
  match cs with
  | [] => simp [paraSplitAux]
  | c :: rest =>
    by_cases hnl : c = '\n'
    · subst hnl
      cases hsep : sepLenAux rest with
      | some k =>
        rw [paraSplitAux_cons_sep hsep]
        have hlt : (rest.drop k).length < n := by
          subst hn; simp only [List.length_drop, List.length_cons]; omega
        have hrec := ih _ hlt (rest.drop k) rfl []
        simp only [List.map_cons, List.flatten_cons]
        rw [hrec]
        have hws : ∀ x ∈ '\n' :: rest.take k, x.isWhitespace = true := by
          intro x hx
          rcases List.mem_cons.mp hx with rfl | hx'
          · decide
          · exact sepLenAux_ws hsep x hx'
        have hdecomp : ('\n' :: rest) = ('\n' :: rest.take k) ++ rest.drop k := by
          simp [List.take_append_drop]
        rw [hdecomp, words_append_sep acc.reverse hws (by simp) _]
        simp [words]
      | none =>
        rw [paraSplitAux_cons_nosep hsep]
        have hlt : rest.length < n := by subst hn; simp
        have hrec := ih _ hlt rest rfl ('\n' :: acc)
        rw [hrec]
        simp [List.append_assoc]
    · rw [paraSplitAux_cons_other rest hnl]
      have hlt : rest.length < n := by subst hn; simp
      have hrec := ih _ hlt rest rfl (c :: acc)
      rw [hrec]
      simp [List.append_assoc]



/-- Paragraph splitting loses only whitespace separators. -/
theorem splitParas_words (t : Str) :
    ((splitParas t).map words).flatten = words t := by
  simpa using paraSplitAux_words t []

/-- One paragraph's emitted pieces, followed by anything, have the words of
the paragraph followed by the words of the rest. -/
theorem words_paraPieces_append (m : Nat) (p : Str) (r : Str) :
    words ((paraPieces m p).flatten ++ r) = words p ++ words r := by
  unfold paraPieces
  by_cases h : m < p.length
  · simp only [h, if_true]
    have hgen : ∀ (ss : List Str) (r : Str),
        words (((ss.map (fun s => s ++ [' '])).flatten) ++ r)
          = (ss.map words).flatten ++ words r := by
      intro ss
      induction ss with
      | nil => intro r; simp
      | cons s ss ih =>
        intro r
        have hsep : ∀ x ∈ ([' '] : Str), x.isWhitespace = true := by
          intro x hx; simp at hx; subst hx; decide
        simp only [List.map_cons, List.flatten_cons]
        have : (s ++ [' ']) ++ ((ss.map (fun s => s ++ [' '])).flatten ++ r)
            = s ++ ([' '] ++ ((ss.map (fun s => s ++ [' '])).flatten ++ r)) := by
          simp [List.append_assoc]
        rw [List.append_assoc, this, words_append_sep s hsep (by simp) _, ih r]
        simp [List.append_assoc]
    rw [hgen (splitSents p) r, splitSents_words]
  · simp only [h, if_false]
    have hsep : ∀ x ∈ (['\n', '\n'] : Str), x.isWhitespace = true := by
      intro x hx; simp at hx; subst hx; decide
    simp only [List.flatten_cons, List.flatten_nil, List.append_nil]
    rw [List.append_assoc, words_append_sep p hsep (by simp) r]

/-- The pieces of a list of paragraphs, concatenated, have the concatenated
words of the paragraphs. -/
theorem words_allPieces (m : Nat) (ps : List Str) :
    words ((ps.map (fun p => (paraPieces m p).flatten)).flatten)
      = (ps.map words).flatten := by
  induction ps with
  | nil => simp [words, wordsAux]
  | cons p ps ih =>
    simp only [List.map_cons, List.flatten_cons]
    rw [words_paraPieces_append m p _, ih]

/-! ## Chunk nonemptiness and size bounds -/

theorem flushIfNeeded_ne (m k : Nat) {st : ChunkSt} (h : ∀ c ∈ st.chunks, c ≠ []) :
    ∀ c ∈ (flushIfNeeded m k st).chunks, c ≠ [] := by
  unfold flushIfNeeded
  by_cases hc : m < st.cur.length + k ∧ 0 < st.cur.length
  · simp only [hc, if_true]
    intro c hmem
    rcases List.mem_append.mp hmem with hmem' | hmem'
    · exact h c hmem'
    · rcases List.mem_singleton.mp hmem' with rfl
      intro hnil
      rw [hnil] at hc
      simp at hc
  · simp only [hc, if_false]; exact h

theorem procSentence_ne (m : Nat) {st : ChunkSt} (s : Str)
    (h : ∀ c ∈ st.chunks, c ≠ []) :
    ∀ c ∈ (procSentence m st s).chunks, c ≠ [] := by
  unfold procSentence
  exact flushIfNeeded_ne m s.length h

theorem foldl_procSentence_ne (m : Nat) (ss : List Str) :
    ∀ st : ChunkSt, (∀ c ∈ st.chunks, c ≠ []) →
      ∀ c ∈ (ss.foldl (procSentence m) st).chunks, c ≠ [] := by
  induction ss with
  | nil => intro st h; exact h
  | cons s ss ih =>
    intro st h
    exact ih (procSentence m st s) (procSentence_ne m s h)

theorem procPara_ne (m : Nat) {st : ChunkSt} (p : Str)
    (h : ∀ c ∈ st.chunks, c ≠ []) :
    ∀ c ∈ (procPara m st p).chunks, c ≠ [] := by
  unfold procPara
  by_cases hl : m < p.length
  · simp only [hl, if_true]
    exact foldl_procSentence_ne m (splitSents p) _ (flushIfNeeded_ne m p.length h)
  · simp only [hl, if_false]
    exact flushIfNeeded_ne m p.length h

theorem foldl_procPara_ne (m : Nat) (ps : List Str) :
    ∀ st : ChunkSt, (∀ c ∈ st.chunks, c ≠ []) →
      ∀ c ∈ (ps.foldl (procPara m) st).chunks, c ≠ [] := by
  induction ps with
  | nil => intro st h; exact h
  | cons p ps ih =>
    intro st h
    exact ih (procPara m st p) (procPara_ne m p h)

/-- A sentence obtained by sentence-splitting one of the oversized paragraphs
of `text` (these are the only indivisible pieces the chunker cannot shrink). -/
def SentencePieceOf (text : Str) (m : Nat) (s : Str) : Prop :=
  ∃ p ∈ splitParas text, m < p.length ∧ s ∈ splitSents p

/-- A chunk is within the separator-padded bound, or is a single oversized
sentence followed by the space the sentence loop appends. -/
def GoodChunk (text : Str) (m : Nat) (c : Str) : Prop :=
  c.length ≤ m + 2 ∨ ∃ s, SentencePieceOf text m s ∧ m < s.length ∧ c = s ++ [' ']

/-- Either the flush emptied the buffer, or nothing changed and the buffer
plus the incoming piece still fits. -/
theorem flushIfNeeded_cases (m k : Nat) (st : ChunkSt) :
    (flushIfNeeded m k st).cur = []
    ∨ (flushIfNeeded m k st = st ∧ st.cur.length + k ≤ m) := by
  by_cases h : m < st.cur.length + k ∧ 0 < st.cur.length
  · left; simp [flushIfNeeded, h]
  · rcases Nat.eq_zero_or_pos st.cur.length with hz | hp
    · left
      simp only [flushIfNeeded, h, if_false]
      exact List.length_eq_zero.mp hz
    · right
      refine ⟨by simp [flushIfNeeded, h], ?_⟩
      rcases Decidable.not_and_iff_or_not.mp h with h1 | h2
      · omega
      · omega

theorem flushIfNeeded_good (text : Str) (m k : Nat) {st : ChunkSt}
    (hch : ∀ c ∈ st.chunks, GoodChunk text m c)
    (hcur : st.cur = [] ∨ GoodChunk text m st.cur) :
    ∀ c ∈ (flushIfNeeded m k st).chunks, GoodChunk text m c := by
  unfold flushIfNeeded
  by_cases h : m < st.cur.length + k ∧ 0 < st.cur.length
  · simp only [h, if_true]
    intro c hmem
    rcases List.mem_append.mp hmem with hmem' | hmem'
    · exact hch c hmem'
    · rcases List.mem_singleton.mp hmem' with rfl
      rcases hcur with hnil | hgood
      · rw [hnil] at h; simp at h
      · exact hgood
  · simp only [h, if_false]; exact hch

theorem procSentence_good (text : Str) (m : Nat) {p s : Str}
    (hp : p ∈ splitParas text) (hlong : m < p.length) (hs : s ∈ splitSents p)
    {st : ChunkSt}
    (hch : ∀ c ∈ st.chunks, GoodChunk text m c)
    (hcur : st.cur = [] ∨ GoodChunk text m st.cur) :
    (∀ c ∈ (procSentence m st s).chunks, GoodChunk text m c)
    ∧ ((procSentence m st s).cur = [] ∨ GoodChunk text m (procSentence m st s).cur) := by
  simp only [procSentence]
  refine ⟨flushIfNeeded_good text m s.length hch hcur, ?_⟩
  right
  rcases flushIfNeeded_cases m s.length st with hz | ⟨heq, hfit⟩
  · rw [hz]
    by_cases hlen : s.length ≤ m
    · left
      simp only [List.nil_append, List.length_append, List.length_singleton]
      omega
    · right
      exact ⟨s, ⟨p, hp, hlong, hs⟩, by omega, by simp⟩
  · rw [heq]
    left
    simp only [List.length_append, List.length_singleton]
    omega

theorem foldl_procSentence_good (text : Str) (m : Nat) {p : Str}
    (hp : p ∈ splitParas text) (hlong : m < p.length) (ss : List Str)
    (hss : ∀ s ∈ ss, s ∈ splitSents p) :
    ∀ st : ChunkSt,
      (∀ c ∈ st.chunks, GoodChunk text m c) →
      (st.cur = [] ∨ GoodChunk text m st.cur) →
      (∀ c ∈ (ss.foldl (procSentence m) st).chunks, GoodChunk text m c)
      ∧ ((ss.foldl (procSentence m) st).cur = []
          ∨ GoodChunk text m (ss.foldl (procSentence m) st).cur) := by
  induction ss with
  | nil => intro st h1 h2; exact ⟨h1, h2⟩
  | cons s ss ih =>
    intro st h1 h2
    have hstep := procSentence_good text m hp hlong (hss s (List.mem_cons_self s ss)) h1 h2
    exact ih (fun x hx => hss x (List.mem_cons_of_mem s hx)) _ hstep.1 hstep.2

theorem procPara_good (text : Str) (m : Nat) {p : Str} (hp : p ∈ splitParas text)
    {st : ChunkSt}
    (hch : ∀ c ∈ st.chunks, GoodChunk text m c)
    (hcur : st.cur = [] ∨ GoodChunk text m st.cur) :
    (∀ c ∈ (procPara m st p).chunks, GoodChunk text m c)
    ∧ ((procPara m st p).cur = [] ∨ GoodChunk text m (procPara m st p).cur) := by
  simp only [procPara]
  by_cases hl : m < p.length
  · simp only [hl, if_true]
    refine foldl_procSentence_good text m hp hl (splitSents p) (fun s hs => hs) _
      (flushIfNeeded_good text m p.length hch hcur) ?_
    rcases flushIfNeeded_cases m p.length st with hz | ⟨heq, _⟩
    · left; exact hz
    · rw [heq]; exact hcur
  · simp only [hl, if_false]
    refine ⟨flushIfNeeded_good text m p.length hch hcur, ?_⟩
    right
    left
    rcases flushIfNeeded_cases m p.length st with hz | ⟨heq, hfit⟩
    · rw [hz]
      simp only [List.nil_append, List.length_append, List.length_cons,
        List.length_nil]
      omega
    · rw [heq]
      simp only [List.length_append, List.length_cons, List.length_nil]
      omega

theorem foldl_procPara_good (text : Str) (m : Nat) (ps : List Str)
    (hps : ∀ p ∈ ps, p ∈ splitParas text) :
    ∀ st : ChunkSt,
      (∀ c ∈ st.chunks, GoodChunk text m c) →
      (st.cur = [] ∨ GoodChunk text m st.cur) →
      (∀ c ∈ (ps.foldl (procPara m) st).chunks, GoodChunk text m c)
      ∧ ((ps.foldl (procPara m) st).cur = []
          ∨ GoodChunk text m (ps.foldl (procPara m) st).cur) := by
  induction ps with
  | nil => intro st h1 h2; exact ⟨h1, h2⟩
  | cons p ps ih =>
    intro st h1 h2
    have hstep := procPara_good text m (hps p (List.mem_cons_self p ps)) h1 h2
    exact ih (fun x hx => hps x (List.mem_cons_of_mem p hx)) _ hstep.1 hstep.2

/-! ## Claims C6 and C7: the chunker contracts -/

/-- Claim C6 (amended to the `lilypad-service.ts` chunker, the one matching
the spec's §4.1 description): for every text `T` and maximum size `M`, the
concatenation of `chunkText T M`, after whitespace normalization, equals `T`
normalized the same way, and no element of the returned list is empty.  (The
counterexample `claim_C6_counterexample` shows the document processor's own
`chunkText` variant can return an empty element, so the claim is amended to
the lilypad-service implementation.) -/
theorem claim_C6 (text : Str) (m : Nat) :
    words ((chunkText text m).flatten) = words text
    ∧ ∀ c ∈ chunkText text m, c ≠ [] := by
  constructor
  · rw [chunkText_join, words_allPieces, splitParas_words]
  · intro c hc
    have hne := foldl_procPara_ne m (splitParas text) ⟨[], []⟩ (by simp)
    revert hc
    unfold chunkText
    by_cases hcur : 0 < ((splitParas text).foldl (procPara m) ⟨[], []⟩).cur.length
    · simp only [hcur, if_true]
      intro hc
      rcases List.mem_append.mp hc with hm | hm
      · exact hne c hm
      · rcases List.mem_singleton.mp hm with rfl
        intro hnil
        rw [hnil] at hcur
        simp at hcur
    · simp only [hcur, if_false]
      intro hc
      exact hne c hc

/-- Witness for C6 at a concrete input. -/
theorem claim_C6_witness :
    words ((chunkText ['a', 'b'] 5).flatten) = words ['a', 'b']
    ∧ (['a', 'b', '\n', '\n'] : Str) ≠ [] := by
  refine ⟨(claim_C6 ['a', 'b'] 5).1, ?_⟩
  exact (claim_C6 ['a', 'b'] 5).2 ['a', 'b', '\n', '\n']
    (by simp [chunkText, splitParas, paraSplitAux, sepLenAux, procPara, flushIfNeeded])

/-- Counterexample for C6 as stated: the document processor's `chunkText`
(the variant that trims pushed chunks), on the text `"\n\n\n\nabc"` with
`maxChunkSize = 2`, returns a list whose first element is the empty string,
refuting "no element of the returned list is empty". -/
theorem claim_C6_counterexample :
    ([] : Str) ∈ chunkTextDP ['\n', '\n', '\n', '\n', 'a', 'b', 'c'] 2 := by
  simp [chunkTextDP, splitParas, paraSplitAux, sepLenAux, procParaDP, trimStr]

/-- Claim C7 (amended): every chunk produced by `chunkText T M` has length at
most `M + 2` (the two-character paragraph separator, or the single-character
sentence separator, appended to a buffer that fit in `M`), except a chunk that
is exactly one indivisible sentence of an oversized paragraph of `T`, longer
than `M`, followed by the appended space; and an oversized paragraph is always
routed through sentence splitting before anything is emitted.  The claim as
stated (bound `M` instead of `M + 2`) is refuted by
`claim_C7_counterexample`. -/
theorem claim_C7 (text : Str) (m : Nat) :
    (∀ c ∈ chunkText text m, GoodChunk text m c)
    ∧ ∀ (st : ChunkSt) (p : Str), m < p.length →
        procPara m st p = (splitSents p).foldl (procSentence m) (flushIfNeeded m p.length st) := by
  constructor
  · intro c hc
    have hinv := foldl_procPara_good text m (splitParas text) (fun p hp => hp)
      ⟨[], []⟩ (by simp) (Or.inl rfl)
    revert hc
    unfold chunkText
    by_cases hcur : 0 < ((splitParas text).foldl (procPara m) ⟨[], []⟩).cur.length
    · simp only [hcur, if_true]
      intro hc
      rcases List.mem_append.mp hc with hm | hm
      · exact hinv.1 c hm
      · rcases List.mem_singleton.mp hm with rfl
        rcases hinv.2 with hnil | hgood
        · rw [hnil] at hcur; simp at hcur
        · exact hgood
    · simp only [hcur, if_false]
      intro hc
      exact hinv.1 c hc
  · intro st p hl
    simp [procPara, hl]

/-- Witness for C7 at a concrete input. -/
theorem claim_C7_witness :
    GoodChunk ['a'] 0 ['a', ' ']
    ∧ procPara 0 ⟨[], []⟩ ['a']
        = (splitSents ['a']).foldl (procSentence 0) (flushIfNeeded 0 (['a'] : Str).length ⟨[], []⟩) := by
  constructor
  · exact (claim_C7 ['a'] 0).1 ['a', ' ']
      (by simp [chunkText, splitParas, paraSplitAux, sepLenAux, procPara, flushIfNeeded,
        splitSents, sentSplitAux, lookbehindPunct, procSentence])
  · exact (claim_C7 ['a'] 0).2 ⟨[], []⟩ ['a'] (by simp)

/-- Counterexample for C7 as stated: `chunkText "a"` with `maxSize = 1`
returns the single chunk `"a\n\n"` of length `3 > 1`, although no sentence of
any paragraph of `"a"` exceeds length 1 — the separator padding alone can push
a chunk past `maxSize`. -/
theorem claim_C7_counterexample :
    ∃ c ∈ chunkText ['a'] 1, 1 < c.length
      ∧ ∀ p ∈ splitParas ['a'], ∀ s ∈ splitSents p, s.length ≤ 1 := by
  refine ⟨['a', '\n', '\n'], ?_, by simp, ?_⟩
  · simp [chunkText, splitParas, paraSplitAux, sepLenAux, procPara, flushIfNeeded]
  · intro p hp s hs
    have hps : splitParas ['a'] = [['a']] := by simp [splitParas, paraSplitAux, sepLenAux]
    rw [hps] at hp
    rcases List.mem_singleton.mp hp with rfl
    have hss : splitSents ['a'] = [['a']] := by
      simp [splitSents, sentSplitAux, lookbehindPunct]
    rw [hss] at hs
    rcases List.mem_singleton.mp hs with rfl
    simp

/-! ## Vector utilities

Embedding of `src/lib/rag/utils/vector-utils.ts`.  JavaScript numbers are
modelled as real numbers; `Math.sqrt` is `Real.sqrt`.  The TypeScript
function throws when the two vectors have different lengths, modelled by an
`Option` result. -/

/-- The loop of `cosineDistance` accumulating `dotProduct`: for equal-length
vectors it is the usual dot product. -/
def dotProduct (a b : List ℝ) : ℝ := (List.zipWith (· * ·) a b).sum

/-- Embedding of `cosineDistance(a, b)` from `vector-utils.ts`: `none` models
the thrown "Vector dimensions don't match" error; otherwise the dot product
over the product of Euclidean magnitudes, with the explicit zero-magnitude
guard returning 0. -/
noncomputable def cosineDistance (a b : List ℝ) : Option ℝ :=
  if a.length ≠ b.length then none
  else
    let normA := Real.sqrt (dotProduct a a)
    let normB := Real.sqrt (dotProduct b b)
    if normA = 0 ∨ normB = 0 then some 0
    else some (dotProduct a b / (normA * normB))

theorem dotProduct_comm (a b : List ℝ) : dotProduct a b = dotProduct b a := by
  unfold dotProduct
  congr 1
  induction a generalizing b with
  | nil => cases b <;> simp
  | cons x xs ih =>
    cases b with
    | nil => simp
    | cons y ys => simp [List.zipWith, mul_comm, ih]

theorem dotProduct_self_nonneg (a : List ℝ) : 0 ≤ dotProduct a a := by
  unfold dotProduct
  induction a with
  | nil => simp
  | cons x xs ih =>
    simp only [List.zipWith, List.sum_cons]
    have := mul_self_nonneg x
    linarith

/-- Cauchy-Schwarz for the list dot product, squared form. -/
theorem dotProduct_sq_le (a b : List ℝ) :
    dotProduct a b ^ 2 ≤ dotProduct a a * dotProduct b b := by
  induction a generalizing b with
  | nil =>
    simp [dotProduct]
  | cons x xs ih =>
    cases b with
    | nil =>
      simp only [dotProduct, List.zipWith, List.sum_nil]
      norm_num
    | cons y ys =>
      have hd := ih ys
      have hA := dotProduct_self_nonneg xs
      have hB := dotProduct_self_nonneg ys
      simp only [dotProduct, List.zipWith, List.sum_cons] at hd hA hB ⊢
      set d := (List.zipWith (· * ·) xs ys).sum with hdef
      set A := (List.zipWith (· * ·) xs xs).sum with hAdef
      set B := (List.zipWith (· * ·) ys ys).sum with hBdef
      rcases eq_or_lt_of_le hB with hB0 | hBpos
      · have hd0 : d = 0 := by
          have h1 : d ^ 2 ≤ 0 := by
            calc d ^ 2 ≤ A * B := hd
            _ = 0 := by rw [← hB0]; ring
          have h2 : 0 ≤ d ^ 2 := sq_nonneg d
          have : d ^ 2 = 0 := le_antisymm h1 h2
          exact pow_eq_zero_iff (n := 2) (by norm_num) |>.mp this
        rw [hd0, ← hB0]
        nlinarith [sq_nonneg (x * y), sq_nonneg x, sq_nonneg y, mul_self_nonneg y]
      · have hkey : B * ((x * x + A) * (y * y + B) - (x * y + d) ^ 2)
            = (x * B - y * d) ^ 2 + (y * y + B) * (A * B - d ^ 2) := by ring
        have hrhs : 0 ≤ (x * B - y * d) ^ 2 + (y * y + B) * (A * B - d ^ 2) := by
          have h1 : 0 ≤ (x * B - y * d) ^ 2 := sq_nonneg _
          have h2 : 0 ≤ y * y + B := by nlinarith [mul_self_nonneg y]
          have h3 : 0 ≤ A * B - d ^ 2 := by linarith
          nlinarith
        nlinarith [hkey, hrhs, hBpos]

theorem abs_dotProduct_le (a b : List ℝ) :
    |dotProduct a b| ≤ Real.sqrt (dotProduct a a) * Real.sqrt (dotProduct b b) := by
  have h1 : |dotProduct a b| = Real.sqrt (dotProduct a b ^ 2) :=
    (Real.sqrt_sq_eq_abs _).symm
  rw [h1, ← Real.sqrt_mul (dotProduct_self_nonneg a)]
  exact Real.sqrt_le_sqrt (dotProduct_sq_le a b)

/-- Claim C9 (amended): self-similarity is 1 under the precondition that the
vector has nonzero magnitude (the zero vector gets similarity 0, see
`claim_C9_counterexample`); similarity is symmetric; for two nonzero vectors
of equal dimension it is the dot product over the product of magnitudes; and
every returned similarity lies in `[-1, 1]`. -/
theorem claim_C9 (a b : List ℝ) :
    (dotProduct a a ≠ 0 → cosineDistance a a = some 1)
    ∧ cosineDistance a b = cosineDistance b a
    ∧ (a.length = b.length →
        Real.sqrt (dotProduct a a) ≠ 0 → Real.sqrt (dotProduct b b) ≠ 0 →
        cosineDistance a b
          = some (dotProduct a b
              / (Real.sqrt (dotProduct a a) * Real.sqrt (dotProduct b b))))
    ∧ ∀ r, cosineDistance a b = some r → -1 ≤ r ∧ r ≤ 1 := by
  refine ⟨?_, ?_, ?_, ?_⟩
  · intro hne
    have hs : Real.sqrt (dotProduct a a) ≠ 0 := by
      rw [Ne, Real.sqrt_eq_zero']
      push_neg
      exact lt_of_le_of_ne (dotProduct_self_nonneg a) (Ne.symm hne)
    simp only [cosineDistance]
    rw [if_neg (by simp), if_neg (by simp [hs])]
    rw [Real.mul_self_sqrt (dotProduct_self_nonneg a), div_self hne]
  · by_cases hlen : a.length = b.length
    · simp only [cosineDistance]
      rw [if_neg (show ¬ a.length ≠ b.length by simp [hlen]),
        if_neg (show ¬ b.length ≠ a.length by simp [hlen])]
      rw [dotProduct_comm a b]
      by_cases hz : Real.sqrt (dotProduct a a) = 0 ∨ Real.sqrt (dotProduct b b) = 0
      · rw [if_pos hz, if_pos (Or.symm hz)]
      · rw [if_neg hz, if_neg (fun h => hz (Or.symm h)), mul_comm]
    · simp only [cosineDistance]
      rw [if_pos hlen, if_pos (fun h => hlen h.symm)]
  · intro hlen hA hB
    simp only [cosineDistance]
    rw [if_neg (by simp [hlen]), if_neg (by simp [hA, hB])]
  · intro r hr
    simp only [cosineDistance] at hr
    by_cases hlen : a.length = b.length
    · rw [if_neg (by simp [hlen])] at hr
      by_cases hz : Real.sqrt (dotProduct a a) = 0 ∨ Real.sqrt (dotProduct b b) = 0
      · rw [if_pos hz] at hr
        cases hr
        norm_num
      · rw [if_neg hz] at hr
        cases hr
        push_neg at hz
        have hApos : 0 < Real.sqrt (dotProduct a a) :=
          lt_of_le_of_ne (Real.sqrt_nonneg _) (Ne.symm hz.1)
        have hBpos : 0 < Real.sqrt (dotProduct b b) :=
          lt_of_le_of_ne (Real.sqrt_nonneg _) (Ne.symm hz.2)
        have hprod : 0 < Real.sqrt (dotProduct a a) * Real.sqrt (dotProduct b b) :=
          mul_pos hApos hBpos
        have habs2 : |dotProduct a b
            / (Real.sqrt (dotProduct a a) * Real.sqrt (dotProduct b b))| ≤ 1 := by
          rw [abs_div, abs_of_pos hprod]
          exact (div_le_one hprod).mpr (abs_dotProduct_le a b)
        exact abs_le.mp habs2
    · rw [if_pos hlen] at hr
      cases hr

/-- Witness for C9 at a concrete input. -/
theorem claim_C9_witness :
    cosineDistance [(1 : ℝ)] [(1 : ℝ)] = some 1 ∧ (-1 ≤ (1 : ℝ) ∧ (1 : ℝ) ≤ 1) := by
  have h1 : cosineDistance [(1 : ℝ)] [(1 : ℝ)] = some 1 :=
    (claim_C9 [(1 : ℝ)] [(1 : ℝ)]).1 (by simp [dotProduct])
  exact ⟨h1, (claim_C9 [(1 : ℝ)] [(1 : ℝ)]).2.2.2 1 h1⟩

/-- Counterexample for C9 as stated: the cosine similarity of the vector `[0]`
with itself is 0, not 1 — "for every vector a, sim(a, a) = 1" fails at the
zero vector, where the implementation's zero-magnitude guard returns 0. -/
theorem claim_C9_counterexample : cosineDistance [(0 : ℝ)] [(0 : ℝ)] ≠ some 1 := by
  have : cosineDistance [(0 : ℝ)] [(0 : ℝ)] = some 0 := by
    simp [cosineDistance, dotProduct]
  rw [this]
  norm_num

/-- Claim C10: whenever either equal-length vector has zero magnitude,
`cosineDistance` returns 0 (rather than dividing by zero, throwing, or
producing NaN); the division is reachable only when both magnitudes are
nonzero. -/
theorem claim_C10 (a b : List ℝ) (hlen : a.length = b.length)
    (h : Real.sqrt (dotProduct a a) = 0 ∨ Real.sqrt (dotProduct b b) = 0) :
    cosineDistance a b = some 0 := by
  simp only [cosineDistance]
  rw [if_neg (by omega), if_pos h]

/-- Witness for C10 at a concrete input. -/
theorem claim_C10_witness :
    ([(0 : ℝ)] : List ℝ).length = ([(1 : ℝ)] : List ℝ).length
    ∧ cosineDistance [(0 : ℝ)] [(1 : ℝ)] = some 0 :=
  ⟨rfl, claim_C10 [(0 : ℝ)] [(1 : ℝ)] rfl (Or.inl (by simp [dotProduct]))⟩

/-! ## The chunk retriever

`retrieveSimilarChunks` embeds the pure ranking core of
`StorachaRetriever.retrieveSimilarChunks` from
`src/lib/rag/storacha-retriever.ts` (the part after the chunk fetches):
filter to dimension-compatible chunks, return `[]` when none remain, else
score by cosine similarity, sort descending (JavaScript's stable sort with
comparator `b.score - a.score`), slice to `topK` and project the chunks. -/

/-- A stored chunk as the retriever sees it (index, text, embedding). -/
structure ChunkData where
  chunkIndex : Nat
  text : Str
  embedding : List ℝ

/-- Stable insertion step for descending sort by key. -/
def insertDesc {α γ : Type} [LinearOrder γ] (key : α → γ) (x : α) : List α → List α
  | [] => [x]
  | y :: ys => if key y < key x then x :: y :: ys else y :: insertDesc key x ys

/-- Stable descending sort by key, modelling JavaScript's
`sort((a, b) => b.key - a.key)`. -/
def sortByDesc {α γ : Type} [LinearOrder γ] (key : α → γ) : List α → List α
  | [] => []
  | x :: xs => insertDesc key x (sortByDesc key xs)

theorem length_insertDesc {α γ : Type} [LinearOrder γ] (key : α → γ) (x : α)
    (l : List α) : (insertDesc key x l).length = l.length + 1 := by
  induction l with
  | nil => simp [insertDesc]
  | cons y ys ih =>
    by_cases h : key y < key x <;> simp [insertDesc, h, ih]

theorem length_sortByDesc {α γ : Type} [LinearOrder γ] (key : α → γ) (l : List α) :
    (sortByDesc key l).length = l.length := by
  induction l with
  | nil => simp [sortByDesc]
  | cons x xs ih => simp [sortByDesc, length_insertDesc, ih]

theorem mem_insertDesc {α γ : Type} [LinearOrder γ] {key : α → γ} {x a : α}
    {l : List α} : a ∈ insertDesc key x l ↔ a = x ∨ a ∈ l := by
  induction l with
  | nil => simp [insertDesc]
  | cons y ys ih =>
    by_cases h : key y < key x
    · simp only [insertDesc, h, if_true, List.mem_cons]
    · simp only [insertDesc, h, if_false, List.mem_cons, ih]
      tauto

theorem mem_sortByDesc {α γ : Type} [LinearOrder γ] {key : α → γ} {a : α}
    {l : List α} : a ∈ sortByDesc key l ↔ a ∈ l := by
  induction l with
  | nil => simp [sortByDesc]
  | cons x xs ih => simp [sortByDesc, mem_insertDesc, ih]

/-- Embedding of the ranking core of `StorachaRetriever.retrieveSimilarChunks`
(the version of `storacha-retriever.ts` under `src/`): no lexical fallback,
an empty result when no chunk is dimension-compatible. -/
noncomputable def retrieveSimilarChunks (queryEmbedding : List ℝ)
    (chunks : List ChunkData) (topK : Nat) : List ChunkData :=
  let compatibleChunks :=
    chunks.filter (fun c => c.embedding.length == queryEmbedding.length)
  if compatibleChunks.isEmpty then []
  else
    let scoredChunks := compatibleChunks.map
      (fun c => (c, (cosineDistance queryEmbedding c.embedding).getD 0))
    ((sortByDesc (fun p => p.2) scoredChunks).take topK).map Prod.fst

/-! ## Spec-modelled retriever with lexical fallback

The repository's current `StorachaRetriever` (the one whose callers pass a
`null` fallback chunk-map CID and invoke `checkDocumentQuality`) is not
present under `src/`; the version of `storacha-retriever.ts` that is present
predates the binary-content sniff and the lexical fallback described in §4.5
of the spec.  The definitions below model that missing behavior from the
spec's words. -/

/-- Does `pat` begin `s`? -/
def begWith : Str → Str → Bool
  | [], _ => true
  | _ :: _, [] => false
  | p :: ps, c :: cs => p == c && begWith ps cs

/-- Does `pat` occur contiguously inside `s`? -/
def containsSeg (pat : Str) : Str → Bool
  | [] => begWith pat []
  | c :: rest => begWith pat (c :: rest) || containsSeg pat rest

/-- Modelled from the spec: the "binary-content sniff" of §4.5 step 3 — a
heuristic scan of chunk text for markers characteristic of un-extracted
binary/markup PDF content.  The marker set is representative; the claims do
not depend on which markers are chosen. -/
def hasBinaryMarkers (s : Str) : Bool :=
  containsSeg ['%', 'P', 'D', 'F'] s || containsSeg ['e', 'n', 'd', 'o', 'b', 'j'] s
    || containsSeg ['e', 'n', 'd', 's', 't', 'r', 'e', 'a', 'm'] s

/-- Modelled from the spec: lexical normalization of §4.5 step 5 — lowercase,
strip non-alphanumerics. -/
def lexNormalize (s : Str) : Str :=
  s.map (fun c => if c.isAlphanum then c.toLower else ' ')

/-- Modelled from the spec: tokenize on whitespace, drop tokens of length
at most 2. -/
def lexTokens (s : Str) : List Str :=
  (words (lexNormalize s)).filter (fun t => decide (2 < t.length))

/-- Modelled from the spec: the fixed bonus for an exact normalized-substring
match (its value is arbitrary in the spec). -/
def lexBonus : Nat := 5

/-- Modelled from the spec: score a chunk by the count of query tokens
present plus the fixed bonus for an exact normalized-substring match. -/
def lexScore (query text : Str) : Nat :=
  (lexTokens query |>.filter (fun t => (lexTokens text).contains t)).length
    + (if containsSeg (lexNormalize query) (lexNormalize text) then lexBonus else 0)

/-- Modelled from the spec: the lexical fallback of §4.5 step 5 — rank all
chunks by lexical score descending; if every chunk scores zero, return the
first K chunks in original order. -/
def lexicalRank (query : Str) (chunks : List ChunkData) (topK : Nat) :
    List ChunkData :=
  let scored := chunks.map (fun c => (c, lexScore query c.text))
  if scored.all (fun p => p.2 == 0) then chunks.take topK
  else ((sortByDesc (fun p => p.2) scored).take topK).map Prod.fst

/-- Modelled from the spec: steps 3-5 of the retrieval algorithm of §4.5 (the
current `StorachaRetriever.retrieveSimilarChunks` with binary sniff and
lexical fallback, missing from `src/`): route to the lexical fallback when
binary markers are sniffed or no chunk is dimension-compatible, else rank the
compatible chunks by cosine similarity and take the top K. -/
noncomputable def specRetrieve (queryEmbedding : List ℝ) (query : Str)
    (chunks : List ChunkData) (topK : Nat) : List ChunkData :=
  if chunks.any (fun c => hasBinaryMarkers c.text) then lexicalRank query chunks topK
  else
    let compatible :=
      chunks.filter (fun c => c.embedding.length == queryEmbedding.length)
    if compatible.isEmpty then lexicalRank query chunks topK
    else
      ((sortByDesc (fun p => p.2)
        (compatible.map (fun c => (c, (cosineDistance queryEmbedding c.embedding).getD 0)))).take
          topK).map Prod.fst

theorem lexicalRank_length_le (query : Str) (chunks : List ChunkData) (k : Nat) :
    (lexicalRank query chunks k).length ≤ k := by
  simp only [lexicalRank]
  cases h : (chunks.map (fun c => (c, lexScore query c.text))).all (fun p => p.2 == 0)
  · rw [if_neg (by simp)]
    simp only [List.length_map]
    exact List.length_take_le _ _
  · rw [if_pos rfl]
    exact List.length_take_le _ _

theorem lexicalRank_ne_nil (query : Str) {chunks : List ChunkData} {k : Nat}
    (hc : chunks ≠ []) (hk : 1 ≤ k) : lexicalRank query chunks k ≠ [] := by
  simp only [lexicalRank]
  have hlen : 0 < chunks.length := List.length_pos.mpr hc
  cases h : (chunks.map (fun c => (c, lexScore query c.text))).all (fun p => p.2 == 0)
  · rw [if_neg (by simp)]
    apply List.ne_nil_of_length_pos
    rw [List.length_map, List.length_take, length_sortByDesc, List.length_map]
    omega
  · rw [if_pos rfl]
    apply List.ne_nil_of_length_pos
    rw [List.length_take]
    omega

/-! ## Claims C2 and C5: retrieval guarantees -/

/-- Claim C2 (amended, spec-modelled): retrieval returns at most `topK`
results, and at least one result whenever the document has at least one chunk
and `topK ≥ 1` (in particular, when no chunk is rankable the lexical fallback
returns the first K chunks).  The stronger bound of the claim as stated — at
least `min(topK, chunkCount)` results — fails when some but not all chunks
are dimension-compatible (`claim_C2_counterexample`): the vector path ranks
only the compatible chunks. -/
theorem claim_C2 (qe : List ℝ) (q : Str) (chunks : List ChunkData) (k : Nat) :
    (specRetrieve qe q chunks k).length ≤ k
    ∧ (chunks ≠ [] → 1 ≤ k → specRetrieve qe q chunks k ≠ []) := by
  constructor
  · simp only [specRetrieve]
    by_cases hb : chunks.any (fun c => hasBinaryMarkers c.text)
    · rw [if_pos hb]
      exact lexicalRank_length_le q chunks k
    · rw [if_neg hb]
      by_cases he :
          (chunks.filter (fun c => c.embedding.length == qe.length)).isEmpty
      · rw [if_pos he]
        exact lexicalRank_length_le q chunks k
      · rw [if_neg he]
        simp only [List.length_map]
        exact List.length_take_le _ _
  · intro hc hk
    simp only [specRetrieve]
    by_cases hb : chunks.any (fun c => hasBinaryMarkers c.text)
    · rw [if_pos hb]
      exact lexicalRank_ne_nil q hc hk
    · rw [if_neg hb]
      by_cases he :
          (chunks.filter (fun c => c.embedding.length == qe.length)).isEmpty
      · rw [if_pos he]
        exact lexicalRank_ne_nil q hc hk
      · rw [if_neg he]
        apply List.ne_nil_of_length_pos
        have hpos : 0 < (chunks.filter
            (fun c => c.embedding.length == qe.length)).length := by
          apply List.length_pos.mpr
          intro hnil
          exact he (by rw [hnil]; rfl)
        rw [List.length_map, List.length_take, length_sortByDesc, List.length_map]
        omega

/-- Witness for C2 at a concrete input. -/
theorem claim_C2_witness :
    (specRetrieve [(1 : ℝ)] ['q'] [⟨0, ['t'], [(1 : ℝ)]⟩] 1).length ≤ 1
    ∧ specRetrieve [(1 : ℝ)] ['q'] [⟨0, ['t'], [(1 : ℝ)]⟩] 1 ≠ [] :=
  ⟨(claim_C2 [(1 : ℝ)] ['q'] [⟨0, ['t'], [(1 : ℝ)]⟩] 1).1,
   (claim_C2 [(1 : ℝ)] ['q'] [⟨0, ['t'], [(1 : ℝ)]⟩] 1).2 (by simp) (le_refl 1)⟩

/-- Counterexample for C2 as stated: with two stored chunks of which exactly
one matches the query dimension, and `topK = 2`, retrieval returns a single
result — fewer than `min(topK, chunkCount) = 2`. -/
theorem claim_C2_counterexample :
    (specRetrieve [(1 : ℝ), 0] ['q']
        [⟨0, ['a'], [(1 : ℝ), 0]⟩, ⟨1, ['b'], [(1 : ℝ), 0, 0]⟩] 2).length = 1
    ∧ min 2 ([⟨0, ['a'], [(1 : ℝ), 0]⟩,
        ⟨1, ['b'], [(1 : ℝ), 0, 0]⟩] : List ChunkData).length = 2 := by
  constructor
  · simp [specRetrieve, hasBinaryMarkers, containsSeg, begWith, sortByDesc, insertDesc]
  · simp

/-- Claim C5: no chunk whose stored embedding dimension differs from the
query embedding's dimension appears in the vector-ranked result of
`retrieveSimilarChunks`; and on every dimension-compatible chunk the cosine
similarity is defined (its length-mismatch error path is unreachable), so the
filter indeed runs before any cross-dimension comparison could happen. -/
theorem claim_C5 (qe : List ℝ) (chunks : List ChunkData) (k : Nat) :
    (∀ c ∈ retrieveSimilarChunks qe chunks k, c.embedding.length = qe.length)
    ∧ ∀ c ∈ chunks, c.embedding.length = qe.length →
        (cosineDistance qe c.embedding).isSome = true := by
  constructor
  · intro c hc
    simp only [retrieveSimilarChunks] at hc
    by_cases he : (chunks.filter (fun c => c.embedding.length == qe.length)).isEmpty
    · rw [if_pos he] at hc
      simp at hc
    · rw [if_neg he] at hc
      rcases List.mem_map.mp hc with ⟨⟨c', r⟩, hmem, hfst⟩
      have hmem2 : (c', r) ∈ sortByDesc (fun p => p.2)
          ((chunks.filter (fun c => c.embedding.length == qe.length)).map
            (fun c => (c, (cosineDistance qe c.embedding).getD 0))) :=
        List.take_subset _ _ hmem
      have hmem3 := mem_sortByDesc.mp hmem2
      rcases List.mem_map.mp hmem3 with ⟨c'', hc'', heq⟩
      have hdim := List.of_mem_filter hc''
      cases heq
      cases hfst
      simpa using hdim
  · intro c hc hdim
    simp only [cosineDistance]
    rw [if_neg (by simp [hdim])]
    by_cases hz : Real.sqrt (dotProduct qe qe) = 0
        ∨ Real.sqrt (dotProduct c.embedding c.embedding) = 0
    · rw [if_pos hz]; rfl
    · rw [if_neg hz]; rfl

/-- Witness for C5 at a concrete input. -/
theorem claim_C5_witness :
    (⟨0, ['t'], [(1 : ℝ)]⟩ : ChunkData).embedding.length = [(1 : ℝ)].length
    ∧ (cosineDistance [(1 : ℝ)]
        (⟨0, ['t'], [(1 : ℝ)]⟩ : ChunkData).embedding).isSome = true := by
  constructor
  · have hmem : (⟨0, ['t'], [(1 : ℝ)]⟩ : ChunkData)
        ∈ retrieveSimilarChunks [(1 : ℝ)] [⟨0, ['t'], [(1 : ℝ)]⟩] 3 := by
      simp [retrieveSimilarChunks, sortByDesc, insertDesc]
    exact (claim_C5 [(1 : ℝ)] [⟨0, ['t'], [(1 : ℝ)]⟩] 3).1 _ hmem
  · exact (claim_C5 [(1 : ℝ)] [⟨0, ['t'], [(1 : ℝ)]⟩] 3).2 _ (by simp) rfl

/-! ## The podcast agent's question-answering and script stages

Embedding of `askRagAgentNode` and the entry check of `generateScriptNode`
from `src/lib/podcast/podcast-agent.ts`.  The RAG agent (`queryRagAgent`) is
an external collaborator, modelled as a function returning `Except`: `.error`
models a thrown error.  JavaScript strings here are Lean `String`s (their
list structure is irrelevant to these claims). -/

/-- Result of a LangGraph node: the updated state fields. -/
structure NodeResult where
  answers : Option (List String)
  error : Option String
  status : String

/-- The five STANDARD_PODCAST_QUESTIONS of `podcast-agent.ts`. -/
def standardPodcastQuestions : List String :=
  ["What is this document about and why is it important?",
   "What are the most exciting aspects of this topic?",
   "What challenges or controversies exist in this area?",
   "How might this topic evolve in the future?",
   "What practical applications or implications does this have for our audience?"]

/-- The per-question catch block's placeholder answer. -/
def answerPlaceholder (e : String) : String :=
  "[Error: Could not get an answer for this question due to: " ++ e ++ "]"

/-- Embedding of `PodcastAgent.askRagAgentNode`: throws (returns an error
result) when no questions are available; otherwise asks every question,
catching each failure and pushing the placeholder at that question's
position, and reports success. -/
def askRagAgentNode (query : String → Except String String)
    (questions : List String) : NodeResult :=
  if questions.isEmpty then
    { answers := none,
      error := some "Error asking RAG Agent: No questions available to ask",
      status := "Error querying RAG Agent" }
  else
    { answers := some (questions.map (fun q =>
        match query q with
        | Except.ok a => a
        | Except.error e => answerPlaceholder e)),
      error := none,
      status := "RAG Agent queried successfully" }

/-- The entry check of `PodcastAgent.generateScriptNode`: the stage proceeds
to the LLM call (rather than throwing "Questions or answers are missing")
precisely when both lists are nonempty. -/
def scriptStageProceeds (questions answers : List String) : Bool :=
  !questions.isEmpty && !answers.isEmpty

/-- Claim C3 (amended): when every selected question's retrieval fails, the
question-answering node still reports success — the answer list holds the
error placeholder at every position, the node's error field stays empty, and
the workflow proceeds to script synthesis (there is no all-failed
escalation in the code; `claim_C3_counterexample` shows it on the five
standard questions). -/
theorem claim_C3 (query : String → Except String String)
    (questions : List String) (hq : questions ≠ [])
    (hfail : ∀ q ∈ questions, ∃ e, query q = Except.error e) :
    (askRagAgentNode query questions).error = none
    ∧ (askRagAgentNode query questions).status = "RAG Agent queried successfully"
    ∧ (∃ l, (askRagAgentNode query questions).answers = some l
        ∧ l.length = questions.length
        ∧ (∀ a ∈ l, ∃ e, a = answerPlaceholder e)
        ∧ scriptStageProceeds questions l = true) := by
  have hne : questions.isEmpty = false := by
    cases questions with
    | nil => exact absurd rfl hq
    | cons q qs => rfl
  refine ⟨?_, ?_, ?_⟩
  · simp [askRagAgentNode, hne]
  · simp [askRagAgentNode, hne]
  · refine ⟨questions.map (fun q =>
      match query q with
      | Except.ok a => a
      | Except.error e => answerPlaceholder e), ?_, ?_, ?_, ?_⟩
    · simp [askRagAgentNode, hne]
    · simp
    · intro a ha
      rcases List.mem_map.mp ha with ⟨q, hqmem, hql⟩
      rcases hfail q hqmem with ⟨e, he⟩
      exact ⟨e, by rw [← hql, he]⟩
    · simp only [scriptStageProceeds, hne, Bool.not_false, Bool.true_and,
        Bool.not_eq_true']
      cases questions with
      | nil => exact absurd rfl hq
      | cons q qs => rfl

/-- Witness for C3 at a concrete input. -/
theorem claim_C3_witness :
    (askRagAgentNode (fun _ => Except.error "boom") ["q1"]).error = none
    ∧ (askRagAgentNode (fun _ => Except.error "boom") ["q1"]).status
        = "RAG Agent queried successfully"
    ∧ (∃ l, (askRagAgentNode (fun _ => Except.error "boom") ["q1"]).answers = some l
        ∧ l.length = (["q1"] : List String).length
        ∧ (∀ a ∈ l, ∃ e, a = answerPlaceholder e)
        ∧ scriptStageProceeds ["q1"] l = true) :=
  claim_C3 (fun _ => Except.error "boom") ["q1"] (by simp)
    (fun q _ => ⟨"boom", rfl⟩)

/-- Counterexample for C3 as stated: with the five standard questions and a
RAG agent that fails on every one, the node reports success (no stage error)
with five placeholder answers, and the script-synthesis gate still passes —
the workflow proceeds instead of escalating a hard stage failure. -/
theorem claim_C3_counterexample :
    (askRagAgentNode (fun _ => Except.error "retrieval failed")
        standardPodcastQuestions).error = none
    ∧ (askRagAgentNode (fun _ => Except.error "retrieval failed")
        standardPodcastQuestions).answers
        = some (List.replicate 5 (answerPlaceholder "retrieval failed"))
    ∧ scriptStageProceeds standardPodcastQuestions
        (List.replicate 5 (answerPlaceholder "retrieval failed")) = true := by
  refine ⟨rfl, ?_, rfl⟩
  rfl

/-- Claim C4: when exactly one question's retrieval fails, the answer list
has the same length as the question list, holds the error placeholder at the
failed index and the real answer everywhere else, and the script stage still
proceeds. -/
theorem claim_C4 (query : String → Except String String)
    (questions : List String) (i : Nat) (hi : i < questions.length)
    (hfail : ∃ e, query (questions.get ⟨i, hi⟩) = Except.error e)
    (hok : ∀ j (hj : j < questions.length), j ≠ i →
      ∃ a, query (questions.get ⟨j, hj⟩) = Except.ok a) :
    ∃ l, (askRagAgentNode query questions).answers = some l
      ∧ l.length = questions.length
      ∧ (∀ hi2 : i < l.length,
          ∃ e, query (questions.get ⟨i, hi⟩) = Except.error e
            ∧ l.get ⟨i, hi2⟩ = answerPlaceholder e)
      ∧ (∀ j (hj : j < l.length) (hj2 : j < questions.length), j ≠ i →
          query (questions.get ⟨j, hj2⟩) = Except.ok (l.get ⟨j, hj⟩))
      ∧ (askRagAgentNode query questions).error = none
      ∧ scriptStageProceeds questions l = true := by
  have hqne : questions ≠ [] := by
    intro hnil
    rw [hnil] at hi
    simp at hi
  have hne : questions.isEmpty = false := by
    cases questions with
    | nil => exact absurd rfl hqne
    | cons q qs => rfl
  refine ⟨questions.map (fun q =>
    match query q with
    | Except.ok a => a
    | Except.error e => answerPlaceholder e), ?_, by simp, ?_, ?_, ?_, ?_⟩
  · simp [askRagAgentNode, hne]
  · intro hi2
    rcases hfail with ⟨e, he⟩
    refine ⟨e, he, ?_⟩
    rw [List.get_map]
    simp only [he]
  · intro j hj hj2 hjne
    rcases hok j hj2 hjne with ⟨a, ha⟩
    rw [List.get_map]
    simp only [ha]
  · simp [askRagAgentNode, hne]
  · simp only [scriptStageProceeds, hne, Bool.not_false, Bool.true_and,
      Bool.not_eq_true']
    cases questions with
    | nil => exact absurd rfl hqne
    | cons q qs => rfl

/-- Witness for C4 at a concrete input: two questions, the first fails. -/
theorem claim_C4_witness :
    ∃ l, (askRagAgentNode
        (fun q => if q = "qa" then Except.error "down" else Except.ok "fine")
        ["qa", "qb"]).answers = some l
      ∧ l.length = (["qa", "qb"] : List String).length
      ∧ (∀ hi2 : 0 < l.length,
          ∃ e, (fun q => if q = "qa" then Except.error "down" else Except.ok "fine")
              ((["qa", "qb"] : List String).get ⟨0, by simp⟩) = Except.error e
            ∧ l.get ⟨0, hi2⟩ = answerPlaceholder e)
      ∧ (∀ j (hj : j < l.length) (hj2 : j < (["qa", "qb"] : List String).length),
          j ≠ 0 →
          (fun q => if q = "qa" then Except.error "down" else Except.ok "fine")
              ((["qa", "qb"] : List String).get ⟨j, hj2⟩) = Except.ok (l.get ⟨j, hj⟩))
      ∧ (askRagAgentNode
          (fun q => if q = "qa" then Except.error "down" else Except.ok "fine")
          ["qa", "qb"]).error = none
      ∧ scriptStageProceeds ["qa", "qb"] l = true :=
  claim_C4 (fun q => if q = "qa" then Except.error "down" else Except.ok "fine")
    ["qa", "qb"] 0 (by simp)
    ⟨"down", by simp⟩
    (fun j hj hjne => by
      match j, hj with
      | 1, _ => exact ⟨"fine", by simp⟩)

/-! ## Podcast storage and the generate-podcast route

Embedding of `getPodcastForDocument` from `src/lib/podcast/podcast-storage.ts`
and of the artifact short-circuit of the podcast `POST` route.  An artifact
store state is threaded to make the idempotence claim expressible: the route
consults `getPodcastForDocument`, which in the source is a placeholder that
ignores the store and always returns `null`. -/

/-- Stored podcast metadata (the fields the route reads). -/
structure PodcastMetadata where
  documentId : String
  title : String
  script : String

/-- The artifact store: podcasts written by `storePodcastAudio` /
`updatePodcastDocumentMap`, keyed by document identifier. -/
structure ArtifactStore where
  artifacts : List PodcastMetadata

/-- Embedding of `getPodcastForDocument(documentId)`: the source's body logs
and returns `null` unconditionally ("This is a placeholder — in a real
implementation, we would fetch the podcast document map …; for testing
purposes, return null"), ignoring the store. -/
def getPodcastForDocument (store : ArtifactStore) (documentId : String) :
    Option PodcastMetadata :=
  none

/-- Result of the podcast `POST` route: the returned script and whether LLM
script generation (`PodcastAgent.generatePodcastScript`) was invoked. -/
structure PodcastPostResult where
  script : String
  llmInvoked : Bool

/-- Embedding of the podcast `POST` route's artifact short-circuit: if
`getPodcastForDocument` returns an existing podcast with a script, return it
without regenerating; otherwise run the podcast agent (which invokes LLM
inference) on the document. -/
def podcastPost (generate : String → String) (store : ArtifactStore)
    (documentId : String) : PodcastPostResult :=
  match getPodcastForDocument store documentId with
  | some existing =>
    if existing.script ≠ "" then { script := existing.script, llmInvoked := false }
    else { script := generate documentId, llmInvoked := true }
  | none => { script := generate documentId, llmInvoked := true }

/-- Claim C8 evaluated on the code: for every artifact store — in particular
one already holding a script for the requested document — the `POST` route
re-invokes LLM generation, because the placeholder `getPodcastForDocument`
always returns `none`.  The second `generatePodcast` request therefore does
not short-circuit, contradicting the idempotence policy. -/
theorem claim_C8 (generate : String → String) (store : ArtifactStore)
    (documentId : String) :
    getPodcastForDocument store documentId = none
    ∧ (podcastPost generate store documentId).llmInvoked = true
    ∧ (podcastPost generate store documentId).script = generate documentId := by
  exact ⟨rfl, rfl, rfl⟩

/-! ## Document registry and the ingestion pipeline

Embedding of `processDocument(file, skipDeduplication)` from the document
processor together with `generateContentHash` / `findDocumentByHash` /
`addDocumentToRegistry` from `src/lib/rag/document-registry.ts`.  SHA-256 and
the embedding model are external capabilities, passed as function parameters;
`uuidv4` is modelled by a fresh-identifier counter in the state; Storacha
uploads return content identifiers, modelled as strings derived from the
fresh document identifier (their exact values are irrelevant: the claims
concern which objects are written). -/

/-- An uploaded file: name, declared media type, size, and the text the
external extractor produces for it. -/
structure DFile where
  name : String
  ftype : String
  size : Nat
  text : Str

/-- A document registry entry (`ProcessedDocument`), reduced to the fields
the pipeline reads: identifier, content hash, chunk-map CID, chunk count. -/
structure RegEntry where
  id : String
  contentHash : String
  chunkMapCid : String
  chunkCount : Nat

/-- A stored chunk object (`storeChunk`'s payload). -/
structure StoredChunk where
  documentId : String
  chunkIndex : Nat
  text : Str
  embedding : List ℝ

/-- The persistent and session state `processDocument` touches: the registry
(a record in insertion order), the chunk objects and text objects written to
the object store, the session document indices, the number of
`createEmbeddings` batch calls, and the UUID supply. -/
structure ProcState where
  registry : List RegEntry
  chunkObjects : List StoredChunk
  textObjects : List (String × Str)
  indices : List (String × String)
  embedBatches : Nat
  nextUuid : Nat

/-- Embedding of `findDocumentByHash`: scan the registry's documents in
insertion order for the first entry with the given content hash. -/
def findDocumentByHash (registry : List RegEntry) (h : String) : Option RegEntry :=
  registry.find? (fun e => e.contentHash == h)

/-- The fresh document identifier produced by `uuidv4()`. -/
def uuidOf (n : Nat) : String := "uuid-" ++ toString n

/-- Embedding of `processDocument(file, skipDeduplication)` (the
registry-gated version of the document processor): extract text, hash it,
return the existing document identifier on a registry hit (recording the
session index entry if absent), else chunk, embed, store chunks, chunk map,
metadata and registry entry under a fresh identifier.  `hash` is the SHA-256
capability, `embed` the embedding capability. -/
def processDocument (hash : Str → String) (embed : List Str → List (List ℝ))
    (f : DFile) (skipDeduplication : Bool) (s : ProcState) : String × ProcState :=
  let text := f.text
  let contentHash := hash text
  match (if skipDeduplication then none
         else findDocumentByHash s.registry contentHash) with
  | some existing =>
    (existing.id,
      if (s.indices.find? (fun p => p.1 == existing.id)).isSome then s
      else { s with indices := s.indices ++ [(existing.id, existing.chunkMapCid)] })
  | none =>
    let documentId := uuidOf s.nextUuid
    let chunks := chunkTextDP text 1000
    let embeddings := embed chunks
    let storedChunks := (List.range chunks.length).map (fun i =>
      { documentId := documentId, chunkIndex := i,
        text := chunks.getD i [], embedding := embeddings.getD i [] : StoredChunk })
    let chunkMapCid := "cid-chunkmap-" ++ documentId
    let entry : RegEntry :=
      { id := documentId, contentHash := contentHash,
        chunkMapCid := chunkMapCid, chunkCount := chunks.length }
    (documentId,
      { registry := s.registry ++ [entry],
        chunkObjects := s.chunkObjects ++ storedChunks,
        textObjects := s.textObjects ++ [(documentId, text)],
        indices := s.indices ++ [(documentId, chunkMapCid)],
        embedBatches := s.embedBatches + 1,
        nextUuid := s.nextUuid + 1 })

theorem find?_append_of_none {α : Type} {p : α → Bool} {l1 l2 : List α}
    (h : l1.find? p = none) : (l1 ++ l2).find? p = l2.find? p := by
  induction l1 with
  | nil => simp
  | cons x xs ih =>
    cases hx : p x
    · simp only [List.cons_append, List.find?_cons, hx] at h ⊢
      exact ih h
    · simp only [List.find?_cons, hx] at h
      exact absurd h (by simp)

theorem find?_append_of_some {α : Type} {p : α → Bool} {l1 l2 : List α} {v : α}
    (h : l1.find? p = some v) : (l1 ++ l2).find? p = some v := by
  induction l1 with
  | nil => simp [List.find?] at h
  | cons x xs ih =>
    cases hx : p x
    · simp only [List.cons_append, List.find?_cons, hx] at h ⊢
      exact ih h
    · simp only [List.cons_append, List.find?_cons, hx] at h ⊢
      exact h

/-- On a registry hit with deduplication enabled, `processDocument` returns
the existing identifier and only (possibly) records the session index. -/
theorem processDocument_hit (hash : Str → String) (embed : List Str → List (List ℝ))
    (f : DFile) (s : ProcState) {e : RegEntry}
    (he : findDocumentByHash s.registry (hash f.text) = some e) :
    processDocument hash embed f false s
      = (e.id,
        if (s.indices.find? (fun p => p.1 == e.id)).isSome then s
        else { s with indices := s.indices ++ [(e.id, e.chunkMapCid)] }) := by
  simp only [processDocument, Bool.false_eq_true, if_false, he]

/-- On a registry miss, `processDocument` processes the document as new. -/
theorem processDocument_miss (hash : Str → String) (embed : List Str → List (List ℝ))
    (f : DFile) (s : ProcState)
    (he : findDocumentByHash s.registry (hash f.text) = none) :
    processDocument hash embed f false s
      = (uuidOf s.nextUuid,
        { registry := s.registry
            ++ [{ id := uuidOf s.nextUuid, contentHash := hash f.text,
                  chunkMapCid := "cid-chunkmap-" ++ uuidOf s.nextUuid,
                  chunkCount := (chunkTextDP f.text 1000).length }],
          chunkObjects := s.chunkObjects
            ++ (List.range (chunkTextDP f.text 1000).length).map (fun i =>
              { documentId := uuidOf s.nextUuid, chunkIndex := i,
                text := (chunkTextDP f.text 1000).getD i [],
                embedding := (embed (chunkTextDP f.text 1000)).getD i [] }),
          textObjects := s.textObjects ++ [(uuidOf s.nextUuid, f.text)],
          indices := s.indices
            ++ [(uuidOf s.nextUuid, "cid-chunkmap-" ++ uuidOf s.nextUuid)],
          embedBatches := s.embedBatches + 1,
          nextUuid := s.nextUuid + 1 }) := by
  simp only [processDocument, Bool.false_eq_true, if_false, he]

/-- Claim C1: two ingestions of files with identical extracted text, with
deduplication not bypassed, return the same document identifier, and the
second call changes nothing at all — no re-chunking, no re-embedding batch,
no new chunk objects, no new registry entry. -/
theorem claim_C1 (hash : Str → String) (embed : List Str → List (List ℝ))
    (f1 f2 : DFile) (s0 : ProcState) (htext : f1.text = f2.text) :
    (processDocument hash embed f2 false
        (processDocument hash embed f1 false s0).2).1
      = (processDocument hash embed f1 false s0).1
    ∧ (processDocument hash embed f2 false
        (processDocument hash embed f1 false s0).2).2
      = (processDocument hash embed f1 false s0).2 := by
  cases hfind : findDocumentByHash s0.registry (hash f1.text) with
  | some e =>
    rw [processDocument_hit hash embed f1 s0 hfind]
    by_cases hidx : (s0.indices.find? (fun p => p.1 == e.id)).isSome = true
    · simp only [hidx, if_true]
      have hfind2 : findDocumentByHash s0.registry (hash f2.text) = some e := by
        rw [← htext]; exact hfind
      rw [processDocument_hit hash embed f2 s0 hfind2]
      simp [hidx]
    · rw [if_neg hidx]
      set s1 : ProcState :=
        { s0 with indices := s0.indices ++ [(e.id, e.chunkMapCid)] } with hs1
      have hreg : s1.registry = s0.registry := rfl
      have hfind2 : findDocumentByHash s1.registry (hash f2.text) = some e := by
        rw [hreg, ← htext]; exact hfind
      rw [processDocument_hit hash embed f2 s1 hfind2]
      have hidx2 : (s1.indices.find? (fun p => p.1 == e.id)).isSome = true := by
        have hnone : s0.indices.find? (fun p => p.1 == e.id) = none := by
          cases hf : s0.indices.find? (fun p => p.1 == e.id) with
          | none => rfl
          | some v => rw [hf] at hidx; simp at hidx
        have : s1.indices.find? (fun p => p.1 == e.id)
            = [(e.id, e.chunkMapCid)].find? (fun p => p.1 == e.id) :=
          find?_append_of_none hnone
        rw [this]
        simp [List.find?]
      simp [hidx2]
  | none =>
    rw [processDocument_miss hash embed f1 s0 hfind]
    have hfind2 : findDocumentByHash
        (s0.registry
          ++ [{ id := uuidOf s0.nextUuid, contentHash := hash f1.text,
                chunkMapCid := "cid-chunkmap-" ++ uuidOf s0.nextUuid,
                chunkCount := (chunkTextDP f1.text 1000).length }])
        (hash f2.text)
        = some { id := uuidOf s0.nextUuid, contentHash := hash f1.text,
                 chunkMapCid := "cid-chunkmap-" ++ uuidOf s0.nextUuid,
                 chunkCount := (chunkTextDP f1.text 1000).length } := by
      unfold findDocumentByHash at hfind ⊢
      rw [← htext, find?_append_of_none hfind]
      simp [List.find?]
    rw [processDocument_hit hash embed f2 _ hfind2]
    have hidx2 : (((s0.indices
        ++ [(uuidOf s0.nextUuid, "cid-chunkmap-" ++ uuidOf s0.nextUuid)]).find?
          (fun p => p.1 == uuidOf s0.nextUuid)).isSome) = true := by
      cases hf : s0.indices.find? (fun p => p.1 == uuidOf s0.nextUuid) with
      | none =>
        rw [find?_append_of_none hf]
        simp [List.find?]
      | some v =>
        rw [find?_append_of_some hf]
        rfl
    rw [if_pos hidx2]
    exact ⟨rfl, rfl⟩

/-- Witness for C1 at a concrete input: two files with different names but
the same text, ingested into the empty state. -/
theorem claim_C1_witness :
    (processDocument (fun _ => "h0") (fun _ => [])
        ⟨"b.txt", "text/plain", 3, ['a', 'b', 'c']⟩ false
        (processDocument (fun _ => "h0") (fun _ => [])
          ⟨"a.txt", "text/plain", 3, ['a', 'b', 'c']⟩ false
          ⟨[], [], [], [], 0, 0⟩).2).1
      = (processDocument (fun _ => "h0") (fun _ => [])
          ⟨"a.txt", "text/plain", 3, ['a', 'b', 'c']⟩ false
          ⟨[], [], [], [], 0, 0⟩).1
    ∧ (processDocument (fun _ => "h0") (fun _ => [])
        ⟨"b.txt", "text/plain", 3, ['a', 'b', 'c']⟩ false
        (processDocument (fun _ => "h0") (fun _ => [])
          ⟨"a.txt", "text/plain", 3, ['a', 'b', 'c']⟩ false
          ⟨[], [], [], [], 0, 0⟩).2).2
      = (processDocument (fun _ => "h0") (fun _ => [])
          ⟨"a.txt", "text/plain", 3, ['a', 'b', 'c']⟩ false
          ⟨[], [], [], [], 0, 0⟩).2 :=
  claim_C1 (fun _ => "h0") (fun _ => [])
    ⟨"a.txt", "text/plain", 3, ['a', 'b', 'c']⟩
    ⟨"b.txt", "text/plain", 3, ['a', 'b', 'c']⟩
    ⟨[], [], [], [], 0, 0⟩ rfl
